import Mathlib

/-!
# Verification of the playground-api hierarchical file-system engine

Shallow embedding of the consistency engine in
`src/playground-api/src/db/files/{mod,system,aggregations,queries}.rs`,
`src/playground-api/src/db/mod.rs`, `src/playground-api/src/string.rs` and
`src/playground-api/src/routes/files.rs`.

The MongoDB collection of file documents is modelled as a `List File`
(insertion order = natural order).  Aggregation pipelines are modelled by
pure recomputations with the same semantics: `$graphLookup` with
`maxDepth: 99` becomes a fuel-bounded breadth-first walk with 100 rounds,
`$lookup` + case-insensitive `$sort` becomes a sort on the lowered
name, and `$match` becomes `List.filter`.  Mutations are state passing:
each operation returns `(Except FileSystemError output) × Store`, where the
returned store is the post-state (unchanged on the error paths the code
takes before writing).
-/

namespace Playground

/-- `NonEmptyString` from `string.rs`: a string that is statically known to
be non-empty (`try_from_str` rejects `""`). -/
def NonEmptyString := { s : String // s ≠ "" }

instance : DecidableEq NonEmptyString := fun a b =>
  decidable_of_iff (a.val = b.val) Subtype.ext_iff.symm

/-- `StringError` from `string.rs`. -/
inductive StringError where
  | Empty
deriving DecidableEq, Repr

/-- `NonEmptyString::try_from_str`. -/
def NonEmptyString.tryFromStr (s : String) : Except StringError NonEmptyString :=
  if h : s = "" then .error .Empty else .ok ⟨s, h⟩

/-- `Video` metadata from `db/files/mod.rs` (opaque to the engine beyond
its name). -/
structure Video where
  name : String
  playId : String
  durationMillis : Nat
  width : Nat
  height : Nat
  thumbnail : String
  mimeType : String
  sizeBytes : Nat
deriving DecidableEq, Repr

/-- `FileMetadata` from `db/files/mod.rs`: the kind tag of a node. -/
inductive FileMetadata where
  | Video (video : Video)
  | Folder
deriving DecidableEq, Repr

/-- `File` from `db/files/mod.rs`: one document of the `files` collection. -/
structure File where
  id : String
  folderId : String
  userId : String
  name : NonEmptyString
  metadata : FileMetadata
deriving DecidableEq

/-- `ROOT_FOLDER_ALIAS` from `db/files/mod.rs`. -/
def ROOT_FOLDER_ALIAS : String := "root"

/-- `File::map_folder_id`. -/
def mapFolderId (userId folderId : String) : String :=
  if folderId = ROOT_FOLDER_ALIAS then userId else folderId

/-- The `files` collection, in natural (insertion) order. -/
abbrev Store := List File

/-- `FileSystemError` from `db/files/system.rs` (`Internal` and `BadString`
wrap their payloads; the payload of `Internal` is irrelevant here). -/
inductive FileSystemError where
  | FolderLoop
  | ReadOnly
  | NotFound
  | Internal
  | BadString (e : StringError)
  | NameConflict (name : NonEmptyString) (folderId : String)
deriving DecidableEq

instance {ε α : Type} [DecidableEq ε] [DecidableEq α] : DecidableEq (Except ε α) :=
  fun x y =>
    match x, y with
    | .ok a, .ok b =>
      if h : a = b then .isTrue (by rw [h])
      else .isFalse (by intro hh; injection hh; contradiction)
    | .error a, .error b =>
      if h : a = b then .isTrue (by rw [h])
      else .isFalse (by intro hh; injection hh; contradiction)
    | .ok _, .error _ => .isFalse (by intro hh; injection hh)
    | .error _, .ok _ => .isFalse (by intro hh; injection hh)

/-! ## Graph query layer (`$graphLookup`, `maxDepth: 99`) -/

/-- One round of the downward `$graphLookup` walk: the documents whose
`folder_id` lies in the current frontier (the walk is *not* scoped by
user, matching `find_all_children_stage`). -/
def stepChildren (s : Store) (frontier : List String) : List String :=
  ((s : List File).filter (fun f => f.folderId ∈ frontier)).map (·.id)

/-- Fuel-bounded descendant walk; collects ids found in rounds `1..fuel`.
`$graphLookup` with `maxDepth: 99` performs 100 rounds, so the collected
set is every id reachable downward in at most 100 parent-edge steps. -/
def graphChildren (s : Store) : Nat → List String → List String
  | 0, _ => []
  | n + 1, frontier =>
    let c := stepChildren s frontier
    c ++ graphChildren s n c

/-- `descendants(node_id)`: the Graph Query Layer primitive
(`find_all_children_stage` applied to one node), capped at depth 99. -/
def descendants (s : Store) (id : String) : List String :=
  graphChildren s 100 [id]

/-- `descendants` of a node set: the batched walk starting from every
requested node that exists in the store (the `$match` stage resolves the
ids to documents before `$graphLookup` starts). -/
def descendantsMany (s : Store) (ids : List String) : List String :=
  graphChildren s 100 (((s : List File).filter (fun f => f.id ∈ ids)).map (·.id))

/-! ## Direct children and change-sets -/

/-- Lexicographic less-or-equal on character sequences (the document
store compares strings byte-wise; code points suffice here). -/
def lexLeChars : List Char → List Char → Bool
  | [], _ => true
  | _ :: _, [] => false
  | a :: as, b :: bs =>
    if a.toNat < b.toNat then true
    else if b.toNat < a.toNat then false
    else lexLeChars as bs

theorem lexLeChars_total : ∀ a b, (lexLeChars a b || lexLeChars b a) = true := by
  intro a
  induction a with
  | nil => intro b; simp [lexLeChars]
  | cons x xs ih =>
    intro b
    cases b with
    | nil => simp [lexLeChars]
    | cons y ys =>
      simp only [lexLeChars]
      by_cases h1 : x.toNat < y.toNat
      · simp [h1]
      · by_cases h2 : y.toNat < x.toNat
        · simp [h1, h2]
        · simp [h1, h2, ih ys]

theorem lexLeChars_trans :
    ∀ a b c, lexLeChars a b = true → lexLeChars b c = true →
      lexLeChars a c = true := by
  intro a
  induction a with
  | nil => intro b c _ _; simp [lexLeChars]
  | cons x xs ih =>
    intro b c hab hbc
    cases b with
    | nil => simp [lexLeChars] at hab
    | cons y ys =>
      cases c with
      | nil => simp [lexLeChars] at hbc
      | cons z zs =>
        simp only [lexLeChars] at hab hbc ⊢
        by_cases hxy : x.toNat < y.toNat
        · by_cases hyz : y.toNat < z.toNat
          · have hxz : x.toNat < z.toNat := Nat.lt_trans hxy hyz
            simp [hxz]
          · by_cases hzy : z.toNat < y.toNat
            · simp [hyz, hzy] at hbc
            · have hxz : x.toNat < z.toNat := by omega
              simp [hxz]
        · by_cases hyx : y.toNat < x.toNat
          · simp [hxy, hyx] at hab
          · simp only [if_neg hxy, if_neg hyx] at hab
            by_cases hyz : y.toNat < z.toNat
            · have hxz : x.toNat < z.toNat := by omega
              simp [hxz]
            · by_cases hzy : z.toNat < y.toNat
              · simp [hyz, hzy] at hbc
              · simp only [if_neg hyz, if_neg hzy] at hbc
                have hxz : ¬ x.toNat < z.toNat := by omega
                have hzx : ¬ z.toNat < x.toNat := by omega
                simp only [if_neg hxz, if_neg hzx]
                exact ih ys zs hab hbc

/-- `$toLower` applied to a node's name, as a character sequence. -/
def lowerName (f : File) : List Char :=
  f.name.val.data.map Char.toLower

/-- The comparison used by `find_direct_children_stage`: ascending on the
lowercased name (`$toLower` + `$sort`). -/
def leNameRel (a b : File) : Prop :=
  lexLeChars (lowerName a) (lowerName b) = true

instance : DecidableRel leNameRel := fun _ _ =>
  inferInstanceAs (Decidable (_ = true))

instance : IsTotal File leNameRel :=
  ⟨fun a b => Bool.or_eq_true_iff.mp (lexLeChars_total (lowerName a) (lowerName b))⟩

instance : IsTrans File leNameRel :=
  ⟨fun _ _ _ => lexLeChars_trans _ _ _⟩

/-- The `$lookup` of `find_direct_children_stage`: all documents (any
owner) whose `folder_id` is the given id, sorted case-insensitively by
name. -/
def directChildrenSorted (s : Store) (id : String) : List File :=
  List.insertionSort leNameRel ((s : List File).filter (fun f => f.folderId = id))

/-- `FolderWithChildren` from `db/files/aggregations.rs`: the change-set
entry `{user_id, folder_id, children}`. -/
structure FolderWithChildren where
  userId : String
  folderId : String
  children : List File
deriving DecidableEq

/-- `FileSystem::find_folder_with_children`: for every document matching
the query (in natural order), its sorted direct-children listing. -/
def findFolderWithChildren (s : Store) (query : File → Bool) : List FolderWithChildren :=
  ((s : List File).filter query).map
    (fun d => ⟨d.userId, d.id, directChildrenSorted s d.id⟩)

/-- `File::lookup_folder_files` from `db/files/queries.rs`: the listing
used for synchronous change queries; same `$match` + sorted direct
children shape as `find_folder_with_children`. -/
def lookupFolderFiles (s : Store) (query : File → Bool) : List FolderWithChildren :=
  ((s : List File).filter query).map
    (fun d => ⟨d.userId, d.id, directChildrenSorted s d.id⟩)

/-! ## Lineage aggregations (`db/files/aggregations.rs`) -/

/-- `query_by_id(user_id, id)`: `{_id: map_folder_id(user_id, id),
user_id}` (as in `get_folder_family`). -/
def queryById (userId id : String) (f : File) : Bool :=
  f.id == mapFolderId userId id && f.userId == userId

/-- `query_many_by_id(user_id, ids)`: `{user_id, _id: {$in: ids}}`. -/
def queryManyById (userId : String) (ids : List String) (f : File) : Bool :=
  f.userId == userId && f.id ∈ ids

/-- `FileSystem::find_lineage`: match the single document
`query_by_id(user_id, file_id)` and return the ids of its capped
descendant set; `none` when the document does not exist.  (`Vec::pop`
takes the last aggregation result, hence `getLast?`.) -/
def findLineage (s : Store) (userId fileId : String) : Option (List String) :=
  (((s : List File).filter (queryById userId fileId)).getLast?).map
    (fun d => graphChildren s 100 [d.id])

/-- `LineageAndParents` from `db/files/aggregations.rs`. -/
structure LineageAndParents where
  lineage : List String
  parents : List String
deriving DecidableEq

/-- `FileSystem::find_lineage_and_parents` (used by `move_many`): match
the documents with `_id ∈ files` owned by the user; `lineage` is the
union of their capped descendant sets, `parents` the set of their direct
`folder_id`s; `none` when nothing matched. -/
def findLineageAndParents (s : Store) (userId : String) (files : List String) :
    Option LineageAndParents :=
  match (s : List File).filter (queryManyById userId files) with
  | [] => none
  | matched =>
    some ⟨matched.flatMap (fun m => graphChildren s 100 [m.id]),
          matched.map (·.folderId)⟩

/-- The `$match` stage of `find_lineage_with_parents`: the documents
owned by the user with `_id ∈ ids` *or* `folder_id ∈ ids`. -/
def deleteMatched (s : Store) (userId : String) (ids : List String) : List File :=
  (s : List File).filter
    (fun f => f.userId == userId && (f.id ∈ ids || f.folderId ∈ ids))

/-- The `lineage` field of `find_lineage_with_parents`: the matched ids
together with all their capped descendants (`dupedIds`). -/
def deleteLineage (s : Store) (userId : String) (ids : List String) : List String :=
  (deleteMatched s userId ids).flatMap (fun m => m.id :: graphChildren s 100 [m.id])

/-- The `parents` field of `find_lineage_with_parents`: the matched
documents' `folder_id`s together with the `folder_id` of every collected
descendant (`dupedFolderIds`). -/
def deleteParents (s : Store) (userId : String) (ids : List String) : List String :=
  (deleteMatched s userId ids).flatMap (fun m =>
    m.folderId ::
      ((s : List File).filter
        (fun c => c.id ∈ graphChildren s 100 [m.id])).map (·.folderId))

/-- `FileSystem::find_lineage_with_parents` (used by `delete_many`):
`none` when the `$match` stage matched nothing. -/
def findLineageWithParents (s : Store) (userId : String) (ids : List String) :
    Option LineageAndParents :=
  match deleteMatched s userId ids with
  | [] => none
  | _ => some ⟨deleteLineage s userId ids, deleteParents s userId ids⟩

/-! ## Consistency engine (`db/files/system.rs`) -/

/-- `FileSystem::move_many`: returns the modified count and, when at
least one document changed, the change-set for the previous parents plus
the target; the second component is the post-state of the store. -/
def moveMany (s : Store) (userId : String) (files : List String) (folder : String) :
    Except FileSystemError (Nat × Option (List FolderWithChildren)) × Store :=
  if userId ∈ files then (.error .ReadOnly, s) else
  let folder' := mapFolderId userId folder
  if folder' ∈ files then (.error .FolderLoop, s) else
  let queryResult := findLineageAndParents s userId files
  if queryResult.any (fun r => folder' ∈ r.lineage) then (.error .FolderLoop, s) else
  let s' : Store := (s : List File).map
    (fun f => if queryManyById userId files f then { f with folderId := folder' } else f)
  let modified :=
    ((s : List File).filter
      (fun f => queryManyById userId files f && f.folderId != folder')).length
  if modified > 0 then
    let folderIds := ((queryResult.map (·.parents)).getD []) ++ [folder']
    (.ok (modified, some (findFolderWithChildren s' (queryManyById userId folderIds))), s')
  else
    (.ok (modified, none), s')

/-- `FileSystem::delete_many`: returns the deleted count and the
change-set; the second component is the post-state of the store. -/
def deleteMany (s : Store) (userId : String) (ids : List String) :
    Except FileSystemError (Nat × List FolderWithChildren) × Store :=
  if userId ∈ ids then (.error .ReadOnly, s) else
  match findLineageWithParents s userId ids with
  | none => (.ok (0, []), s)
  | some r =>
    let s' : Store := (s : List File).filter (fun f => !queryManyById userId r.lineage f)
    let deleted := ((s : List File).filter (queryManyById userId r.lineage)).length
    (.ok (deleted, findFolderWithChildren s' (queryManyById userId r.parents)), s')

/-- Replace the first list element satisfying `p` by `g` of it
(`find_one_and_update` touches only the first match). -/
def updateFirst (s : List File) (p : File → Bool) (g : File → File) : List File :=
  match s with
  | [] => []
  | f :: rest => if p f then g f :: rest else f :: updateFirst rest p g

/-- The write-and-notify tail of `update_one`, after the read-only check,
the folder-loop check and the name validation. -/
def updateOneApply (s : Store) (userId fileId : String)
    (folder' : Option String) (newName : Option NonEmptyString) :
    Except FileSystemError (File × List FolderWithChildren) × Store :=
  match (s : List File).find? (fun f => f.id == fileId && f.userId == userId) with
  | none => (.error .NotFound, s)
  | some orig =>
    let s' : Store := updateFirst s (fun f => f.id == fileId && f.userId == userId)
      (fun f => { f with folderId := folder'.getD f.folderId,
                         name := newName.getD f.name })
    let changes := match folder' with
      | some g => findFolderWithChildren s' (queryManyById userId [g, orig.folderId])
      | none => findFolderWithChildren s' (fun f => f.id == orig.folderId)
    (.ok (orig, changes), s')

/-- `name.map(NonEmptyString::try_from).transpose()` from `update_one`. -/
def transposeName (name : Option String) : Except StringError (Option NonEmptyString) :=
  match name with
  | none => .ok none
  | some n =>
    match NonEmptyString.tryFromStr n with
    | .error e => .error e
    | .ok nn => .ok (some nn)

/-- `FileSystem::update_one`: read-only check, folder-loop check against
`find_lineage`, name validation, then the atomic read-modify-write that
returns the pre-mutation document and the change-set. -/
def updateOne (s : Store) (userId fileId : String)
    (folder : Option String) (name : Option String) :
    Except FileSystemError (File × List FolderWithChildren) × Store :=
  if fileId = userId then (.error .ReadOnly, s) else
  let folder' := folder.map (mapFolderId userId)
  if folder'.any (fun g => (findLineage s userId fileId).any (fun lin => g ∈ lin)) then
    (.error .FolderLoop, s)
  else
    match transposeName name with
    | .error e => (.error (.BadString e), s)
    | .ok newName => updateOneApply s userId fileId folder' newName

/-- The key filter of `FileSystem::save_one`: `(user_id, folder_id,
name)`. -/
def saveOneQuery (file : File) (d : File) : Bool :=
  d.userId == file.userId && d.folderId == file.folderId && d.name == file.name

/-- `Database::create` (`db/mod.rs`): upsert with `$setOnInsert` — if a
document matches the query nothing is inserted (`Ok none`); otherwise
the document is inserted, unless its `_id` already exists, which the
store rejects (unique `_id` index). -/
def dbCreate (s : Store) (file : File) (query : File → Bool) :
    Except Unit (Option File) × Store :=
  if (s : List File).any query then (.ok none, s)
  else if (s : List File).any (fun d => d.id == file.id) then (.error (), s)
  else (.ok (some file), ((s : List File) ++ [file] : List File))

/-- `FileSystem::create_one`: insert-if-absent keyed on
`(user_id, folder_id, name)`; `NameConflict` when the key exists, else
the new node plus the change-set of its parent folder. -/
def createOne (s : Store) (file : File) :
    Except FileSystemError (File × List FolderWithChildren) × Store :=
  match dbCreate s file (saveOneQuery file) with
  | (.error _, s') => (.error .Internal, s')
  | (.ok none, s') => (.error (.NameConflict file.name file.folderId), s')
  | (.ok (some nf), s') =>
    (.ok (nf, findFolderWithChildren s' (fun f => f.id == nf.folderId)), s')

/-! ## Node constructors (`db/files/mod.rs`) -/

/-- `File::new_folder`.  The fresh `ObjectId` the source draws is passed
in as `newId`. -/
def newFolder (newId userId name : String) (folderId : Option String) :
    Except StringError File :=
  match NonEmptyString.tryFromStr name with
  | .error e => .error e
  | .ok nn =>
    .ok ⟨newId, (folderId.map (mapFolderId userId)).getD userId, userId, nn, .Folder⟩

/-- `File::from_video`.  The fresh `ObjectId` is passed in as `newId`. -/
def fromVideo (newId : String) (video : Video) (userId : String)
    (folderId : Option String) (customName : Option String) :
    Except StringError File :=
  match NonEmptyString.tryFromStr (customName.getD video.name) with
  | .error e => .error e
  | .ok nn => .ok ⟨newId, folderId.getD userId, userId, nn, .Video video⟩

/-! ## Routes and notification fan-out (`routes/files.rs`) -/

/-- `PartialFile`: the field-level partial of `File` (every field an
explicit optional); `to_document` serializes exactly the present
fields. -/
structure PartialFile where
  id : Option String := none
  folderId : Option String := none
  userId : Option String := none
  name : Option String := none
  metadata : Option FileMetadata := none

/-- The filter document a `PartialFile` serializes to: field-by-field
equality on the present fields. -/
def matchesPartial (q : PartialFile) (f : File) : Bool :=
  q.id.all (· == f.id) && q.folderId.all (· == f.folderId) &&
  q.userId.all (· == f.userId) && q.name.all (· == f.name.val) &&
  q.metadata.all (· == f.metadata)

/-- `get_files` (`routes/files.rs`): a plain `find` with the partial
filter — no sort stage, so documents come back in natural store order. -/
def getFiles (s : Store) (q : PartialFile) : List File :=
  (s : List File).filter (matchesPartial q)

/-- `EventMessage` (`websockets/channel.rs`), restricted to the variant
the engine publishes. -/
inductive EventMessage where
  | FolderChange (change : FolderWithChildren)
deriving DecidableEq

/-- `send_folder_changes`: one message per change entry, dropped wholesale
when nobody is listening. -/
def sendFolderChanges (receiverCount : Nat) (changes : List FolderWithChildren) :
    List EventMessage :=
  if receiverCount = 0 then [] else changes.map .FolderChange

/-- The route-level pattern around every mutation: the mutation's error
propagates with `?` before `send_folder_changes` runs, so messages go out
only on success. -/
def publishOnSuccess {α : Type} (receiverCount : Nat)
    (result : Except FileSystemError α) (changesOf : α → List FolderWithChildren) :
    List EventMessage :=
  match result with
  | .ok a => sendFolderChanges receiverCount (changesOf a)
  | .error _ => []

/-! ## Invariants -/

/-- Acyclicity: no node is in its own (capped) descendant set. -/
def Acyclic (s : Store) : Prop :=
  ∀ f ∈ (s : List File), f.id ∉ descendants s f.id

/-- The parent-reference invariant of the data model: every node's
`parent_id` is the root alias or an existing Folder-kind node of the same
owner. -/
def ParentRefInv (s : Store) : Prop :=
  ∀ f ∈ (s : List File),
    f.folderId = ROOT_FOLDER_ALIAS ∨
      ∃ p ∈ (s : List File),
        p.id = f.folderId ∧ p.userId = f.userId ∧ p.metadata = .Folder

/-- Well-formed store: document ids are unique (`_id` is a key). -/
def UniqueIds (s : Store) : Prop :=
  ((s : List File).map (·.id)).Nodup

instance (s : Store) : Decidable (Acyclic s) :=
  inferInstanceAs (Decidable (∀ f ∈ (s : List File), f.id ∉ descendants s f.id))

instance (s : Store) : Decidable (ParentRefInv s) := by
  unfold ParentRefInv; infer_instance

instance (s : Store) : Decidable (UniqueIds s) := by
  unfold UniqueIds; infer_instance

/-! ## Lemmas about the capped descendant walk -/

theorem mem_stepChildren {s : Store} {fr : List String} {y : String} :
    y ∈ stepChildren s fr ↔ ∃ d ∈ s, d.folderId ∈ fr ∧ d.id = y := by
  simp only [stepChildren, List.mem_map, List.mem_filter, decide_eq_true_iff]
  constructor
  · rintro ⟨d, ⟨hd, hfr⟩, hid⟩; exact ⟨d, hd, hfr, hid⟩
  · rintro ⟨d, hd, hfr, hid⟩; exact ⟨d, ⟨hd, hfr⟩, hid⟩

theorem stepChildren_subset {s : Store} {fr fr' : List String}
    (h : ∀ x ∈ fr, x ∈ fr') : ∀ y ∈ stepChildren s fr, y ∈ stepChildren s fr' := by
  intro y hy
  rcases mem_stepChildren.mp hy with ⟨d, hd, hfr, hid⟩
  exact mem_stepChildren.mpr ⟨d, hd, h _ hfr, hid⟩

theorem graphChildren_subset (s : Store) :
    ∀ n {fr fr' : List String}, (∀ x ∈ fr, x ∈ fr') →
      ∀ y ∈ graphChildren s n fr, y ∈ graphChildren s n fr' := by
  intro n
  induction n with
  | zero => intro fr fr' _ y hy; simp [graphChildren] at hy
  | succ n ih =>
    intro fr fr' h y hy
    simp only [graphChildren, List.mem_append] at hy ⊢
    rcases hy with hy | hy
    · exact Or.inl (stepChildren_subset h y hy)
    · exact Or.inr (ih (stepChildren_subset h) y hy)

theorem graphChildren_mono_fuel (s : Store) :
    ∀ {n m : Nat}, n ≤ m → ∀ {fr : List String},
      ∀ y ∈ graphChildren s n fr, y ∈ graphChildren s m fr := by
  intro n
  induction n with
  | zero => intro m _ fr y hy; simp [graphChildren] at hy
  | succ n ih =>
    intro m hm fr y hy
    rcases Nat.exists_eq_add_of_le hm with ⟨k, hk⟩
    subst hk
    have hrw : n + 1 + k = (n + k) + 1 := by omega
    rw [hrw]
    simp only [graphChildren, List.mem_append] at hy ⊢
    rcases hy with hy | hy
    · exact Or.inl hy
    · exact Or.inr (ih (Nat.le_add_right n k) y hy)

theorem stepChildren_mem_graphChildren {s : Store} {n : Nat} (hn : 1 ≤ n)
    {fr : List String} {y : String} (hy : y ∈ stepChildren s fr) :
    y ∈ graphChildren s n fr := by
  rcases Nat.exists_eq_add_of_le hn with ⟨k, hk⟩
  subst hk
  rw [Nat.add_comm]
  simp only [graphChildren, List.mem_append]
  exact Or.inl hy

theorem mem_graphChildren_iff (s : Store) :
    ∀ (n : Nat) (fr : List String) (y : String),
      y ∈ graphChildren s n fr ↔ ∃ a ∈ fr, y ∈ graphChildren s n [a] := by
  intro n
  induction n with
  | zero => intro fr y; simp [graphChildren]
  | succ n ih =>
    intro fr y
    constructor
    · intro hy
      simp only [graphChildren, List.mem_append] at hy
      rcases hy with hy | hy
      · rcases mem_stepChildren.mp hy with ⟨d, hd, hfr, hid⟩
        refine ⟨d.folderId, hfr, ?_⟩
        exact stepChildren_mem_graphChildren (Nat.succ_le_succ (Nat.zero_le n))
          (mem_stepChildren.mpr ⟨d, hd, List.mem_singleton.mpr rfl, hid⟩)
      · rcases (ih (stepChildren s fr) y).mp hy with ⟨b, hb, hyb⟩
        rcases mem_stepChildren.mp hb with ⟨d, hd, hfr, hid⟩
        refine ⟨d.folderId, hfr, ?_⟩
        simp only [graphChildren, List.mem_append]
        refine Or.inr (graphChildren_subset s n ?_ y hyb)
        intro x hx
        rcases List.mem_singleton.mp hx with rfl
        exact mem_stepChildren.mpr ⟨d, hd, List.mem_singleton.mpr rfl, hid⟩
    · rintro ⟨a, ha, hy⟩
      refine graphChildren_subset s (n + 1) ?_ y hy
      intro x hx
      rcases List.mem_singleton.mp hx with rfl
      exact ha

/-- Extending a walk by one known edge: if `m` is a direct child of `a`
then everything reachable from `m` in `n` rounds is reachable from `a` in
`n + 1`. -/
theorem graphChildren_step {s : Store} {n : Nat} {a b y : String}
    (hb : b ∈ stepChildren s [a]) (hy : y ∈ graphChildren s n [b]) :
    y ∈ graphChildren s (n + 1) [a] := by
  simp only [graphChildren, List.mem_append]
  refine Or.inr (graphChildren_subset s n ?_ y hy)
  intro x hx
  rcases List.mem_singleton.mp hx with rfl
  exact hb

/-- Every collected node's own parent pointer stays inside the walk: it
is either in the start frontier or itself collected. -/
theorem graphChildren_parent_mem (s : Store) :
    ∀ (n : Nat) (fr : List String) (y : String), y ∈ graphChildren s n fr →
      ∃ d ∈ s, d.id = y ∧ (d.folderId ∈ fr ∨ d.folderId ∈ graphChildren s n fr) := by
  intro n
  induction n with
  | zero => intro fr y hy; simp [graphChildren] at hy
  | succ n ih =>
    intro fr y hy
    simp only [graphChildren, List.mem_append] at hy
    rcases hy with hy | hy
    · rcases mem_stepChildren.mp hy with ⟨d, hd, hfr, hid⟩
      exact ⟨d, hd, hid, Or.inl hfr⟩
    · rcases ih (stepChildren s fr) y hy with ⟨d, hd, hid, hcase⟩
      refine ⟨d, hd, hid, Or.inr ?_⟩
      simp only [graphChildren, List.mem_append]
      rcases hcase with h | h
      · exact Or.inl h
      · exact Or.inr h

/-! ## Characterizations of the lineage aggregations -/

theorem findLineageAndParents_eq_some (s : Store) (userId : String)
    (files : List String)
    (h : (s : List File).filter (queryManyById userId files) ≠ []) :
    findLineageAndParents s userId files =
      some ⟨((s : List File).filter (queryManyById userId files)).flatMap
              (fun m => graphChildren s 100 [m.id]),
            ((s : List File).filter (queryManyById userId files)).map (·.folderId)⟩ := by
  unfold findLineageAndParents
  cases hf : (s : List File).filter (queryManyById userId files) with
  | nil => exact absurd hf h
  | cons a l => rfl

theorem findLineageWithParents_eq_some (s : Store) (userId : String)
    (ids : List String) (h : deleteMatched s userId ids ≠ []) :
    findLineageWithParents s userId ids =
      some ⟨deleteLineage s userId ids, deleteParents s userId ids⟩ := by
  unfold findLineageWithParents
  cases hf : deleteMatched s userId ids with
  | nil => exact absurd hf h
  | cons a l => rfl

/-! ## Concrete fixtures -/

/-- The owner `"u"`'s root folder: id equals the owner id, parent the
alias. -/
def rootU : File := ⟨"u", "root", "u", ⟨"root", by decide⟩, .Folder⟩

/-- A folder directly under the root. -/
def folderF : File := ⟨"f", "u", "u", ⟨"F", by decide⟩, .Folder⟩

/-- A folder nested under `folderF`. -/
def folderC : File := ⟨"c", "f", "u", ⟨"C", by decide⟩, .Folder⟩

/-- A Leaf-kind node (a video) directly under the root. -/
def videoV : File := ⟨"v", "u", "u", ⟨"V", by decide⟩,
  .Video ⟨"V", "p", 0, 0, 0, "t", "m", 0⟩⟩

/-- Folders with names whose natural store order differs from the
case-insensitive alphabetical order. -/
def folderB : File := ⟨"b", "u", "u", ⟨"b", by decide⟩, .Folder⟩

def folderA : File := ⟨"a", "u", "u", ⟨"A", by decide⟩, .Folder⟩

def storeUF : Store := [rootU, folderF]

def storeUFC : Store := [rootU, folderF, folderC]

def storeUFV : Store := [rootU, folderF, videoV]

def storeBA : Store := [rootU, folderB, folderA]

/-! ## Claim C1 — acyclicity across mutations -/

/-- C1: the claim "no successful update_one can make a node its own
parent" fails on the code.  On the acyclic store `[root u, folder f]`,
`update_one(owner = "u", node = "f", new_parent = "f")` succeeds —
`find_lineage` only returns the *strict* capped descendants of `f`, which
do not contain `f` itself, so the folder-loop guard does not fire — and
afterwards `f` is its own parent and a member of its own descendant set. -/
theorem c1_update_one_self_parent_bug :
    Acyclic storeUF ∧
    (updateOne storeUF "u" "f" (some "f") none).1.isOk = true ∧
    "f" ∈ descendants (updateOne storeUF "u" "f" (some "f") none).2 "f" ∧
    ¬ Acyclic (updateOne storeUF "u" "f" (some "f") none).2 := by decide

/-! ## Claim C2 — root mutations and `ReadOnly` -/

/-- C2 counterexample: the claim requires `ReadOnly` also when the root is
denoted by the reserved alias `"root"`, but `move_many` only compares the
node_ids against the owner id.  With owner `"u"` and node_ids
`{"root"}`, `move_many` is a successful no-op (`Ok (0, none)`), not a
`ReadOnly` error (the id `"root"` matches no document, since the root's
id is the owner id). -/
theorem c2_root_alias_counterexample :
    moveMany storeUF "u" [ROOT_FOLDER_ALIAS] "f" = (.ok (0, none), storeUF) ∧
    (moveMany storeUF "u" [ROOT_FOLDER_ALIAS] "f").1 ≠ .error .ReadOnly := by decide

/-- C2 amended: mutating the owner's root fails with `ReadOnly` and leaves
the store unchanged whenever the root is denoted by its actual id (the
owner id): `move_many`/`delete_many` with the owner id among the node_ids
and `update_one` with node_id equal to the owner id. -/
theorem c2_root_mutation_read_only (s : Store) (userId target : String)
    (ids : List String) (fo no : Option String) (h : userId ∈ ids) :
    moveMany s userId ids target = (.error .ReadOnly, s) ∧
    deleteMany s userId ids = (.error .ReadOnly, s) ∧
    updateOne s userId userId fo no = (.error .ReadOnly, s) := by
  refine ⟨?_, ?_, ?_⟩
  · unfold moveMany; rw [if_pos h]
  · unfold deleteMany; rw [if_pos h]
  · unfold updateOne; rw [if_pos rfl]

/-- Witness for the amended C2 at a concrete input. -/
theorem c2_root_mutation_read_only_witness :
    ("u" ∈ ["u", "f"]) ∧
    moveMany storeUF "u" ["u", "f"] "c" = (.error .ReadOnly, storeUF) ∧
    deleteMany storeUF "u" ["u", "f"] = (.error .ReadOnly, storeUF) ∧
    updateOne storeUF "u" "u" none none = (.error .ReadOnly, storeUF) := by
  have h := c2_root_mutation_read_only storeUF "u" "c" ["u", "f"] none none
    (by decide)
  exact ⟨by decide, h.1, h.2.1, h.2.2⟩

/-! ## Claim C3 — moving a folder into its own descendants -/

/-- C3 counterexample: the claim quantifies over *every* folder `F`, but
when `F` is the owner's root the read-only check fires first: with
`F = "u"` (the root of owner `"u"`) and destination `"f" ∈
descendants("u")`, both `update_one` and `move_many` return `ReadOnly`,
not the claimed `FolderLoop`. -/
theorem c3_root_counterexample :
    "f" ∈ descendants storeUF "u" ∧
    updateOne storeUF "u" "u" (some "f") none = (.error .ReadOnly, storeUF) ∧
    moveMany storeUF "u" ["u"] "f" = (.error .ReadOnly, storeUF) ∧
    FileSystemError.ReadOnly ≠ FileSystemError.FolderLoop := by decide

/-- C3 amended: for every folder `F` that exists, is owned by the caller
and is not the owner's root (neither by id nor by alias), moving `F` into
any member of `descendants(F)` fails with `FolderLoop` and leaves the
store unchanged — via `move_many` whenever the owner id is not among the
node_ids, and via `update_one` for any simultaneous rename argument. -/
theorem c3_move_into_descendant_folder_loop
    (s : Store) (user target F : String) (files : List String) (fdoc : File)
    (hmem : fdoc ∈ s) (hid : fdoc.id = F) (huser : fdoc.userId = user)
    (hdesc : mapFolderId user target ∈ descendants s F) :
    (user ∉ files → F ∈ files →
      moveMany s user files target = (.error .FolderLoop, s)) ∧
    (F ≠ user → F ≠ ROOT_FOLDER_ALIAS → ∀ name,
      updateOne s user F (some target) name = (.error .FolderLoop, s)) := by
  constructor
  · intro hnu hFf
    unfold moveMany
    rw [if_neg hnu]
    by_cases htf : mapFolderId user target ∈ files
    · rw [if_pos htf]
    · rw [if_neg htf]
      have hfil : fdoc ∈ (s : List File).filter (queryManyById user files) := by
        refine List.mem_filter.mpr ⟨hmem, ?_⟩
        simp [queryManyById, huser, hid, hFf]
      have hne : (s : List File).filter (queryManyById user files) ≠ [] := by
        intro h0
        rw [h0] at hfil
        exact (List.not_mem_nil _) hfil
      have hmemlin : mapFolderId user target ∈
          ((s : List File).filter (queryManyById user files)).flatMap
            (fun m => graphChildren s 100 [m.id]) := by
        refine List.mem_flatMap.mpr ⟨fdoc, hfil, ?_⟩
        rw [hid]
        exact hdesc
      rw [findLineageAndParents_eq_some s user files hne]
      simp only [Option.any_some, decide_eq_true_eq]
      rw [if_pos hmemlin]
  · intro hFu hFr name
    unfold updateOne
    rw [if_neg hFu]
    have hmap : mapFolderId user F = F := by
      unfold mapFolderId
      rw [if_neg hFr]
    have hfil : fdoc ∈ (s : List File).filter (queryById user F) := by
      refine List.mem_filter.mpr ⟨hmem, ?_⟩
      simp [queryById, hmap, hid, huser]
    have hne : (s : List File).filter (queryById user F) ≠ [] := by
      intro h0
      rw [h0] at hfil
      exact (List.not_mem_nil _) hfil
    obtain ⟨d, hd⟩ : ∃ d, ((s : List File).filter (queryById user F)).getLast? = some d := by
      cases hfl : (s : List File).filter (queryById user F) with
      | nil => exact absurd hfl hne
      | cons a l =>
        exact ⟨(a :: l).getLast (by simp), List.getLast?_eq_getLast _ _⟩
    have hdmem : d ∈ (s : List File).filter (queryById user F) :=
      List.mem_of_mem_getLast? hd
    have hdid : d.id = F := by
      have hq := List.of_mem_filter hdmem
      simp only [queryById, hmap, Bool.and_eq_true, beq_iff_eq] at hq
      exact hq.1
    have hlin : findLineage s user F = some (graphChildren s 100 [d.id]) := by
      unfold findLineage
      rw [hd]
      rfl
    have hcond : mapFolderId user target ∈ graphChildren s 100 [d.id] := by
      rw [hdid]
      exact hdesc
    simp only [Option.map_some', Option.any_some, hlin, decide_eq_true_eq]
    rw [if_pos hcond]

/-- Witness for the amended C3 at a concrete input: in
`[root u, folder f, folder c ⊂ f]`, moving `f` into its descendant `c`
fails with `FolderLoop` both ways. -/
theorem c3_folder_loop_witness :
    moveMany storeUFC "u" ["f"] "c" = (.error .FolderLoop, storeUFC) ∧
    updateOne storeUFC "u" "f" (some "c") none = (.error .FolderLoop, storeUFC) := by
  have h := c3_move_into_descendant_folder_loop storeUFC "u" "c" "f" ["f"]
    folderF (by decide) (by decide) (by decide) (by decide)
  exact ⟨h.1 (by decide) (by decide), h.2 (by decide) (by decide) none⟩

/-! ## Claim C5 — the parent-reference invariant is not enforced -/

/-- C5 counterexample: `move_many` performs no validation that the target
is an existing Folder.  On `[root u, folder f, video v]` (which satisfies
the parent-reference invariant), moving `f` into the Leaf-kind node `v`
succeeds and leaves `f` with a Leaf parent, violating the invariant. -/
theorem c5_parent_invariant_counterexample :
    ParentRefInv storeUFV ∧
    (moveMany storeUFV "u" ["f"] "v").1.isOk = true ∧
    videoV ∈ storeUFV ∧ videoV.metadata ≠ .Folder ∧
    (∃ f ∈ (moveMany storeUFV "u" ["f"] "v").2, f.id = "f" ∧ f.folderId = "v") ∧
    ¬ ParentRefInv (moveMany storeUFV "u" ["f"] "v").2 := by decide

/-- C5 amended: a successful `move_many` only guarantees the checks it
actually performs — the owner id is not among the node_ids, the mapped
target is neither among the node_ids nor inside their computed lineage —
and it rewrites the parent of every matching node to the mapped target
unconditionally; nothing establishes that the target is an existing
Folder-kind node, so the parent-reference invariant is not preserved. -/
theorem c5_move_many_no_parent_validation (s : Store) (user target : String)
    (files : List String)
    (hok : (moveMany s user files target).1.isOk = true) :
    (moveMany s user files target).2 =
      (s : List File).map (fun f =>
        if queryManyById user files f
        then { f with folderId := mapFolderId user target } else f) ∧
    user ∉ files ∧
    mapFolderId user target ∉ files ∧
    (∀ r, findLineageAndParents s user files = some r →
      mapFolderId user target ∉ r.lineage) := by
  unfold moveMany at hok ⊢
  by_cases h1 : user ∈ files
  · simp only [if_pos h1] at hok
    simp [Except.isOk, Except.toBool] at hok
  · simp only [if_neg h1] at hok ⊢
    by_cases h2 : mapFolderId user target ∈ files
    · simp only [if_pos h2] at hok
      simp [Except.isOk, Except.toBool] at hok
    · simp only [if_neg h2] at hok ⊢
      by_cases h3 : (findLineageAndParents s user files).any
          (fun r => decide (mapFolderId user target ∈ r.lineage)) = true
      · simp only [if_pos h3] at hok
        simp [Except.isOk, Except.toBool] at hok
      · simp only [if_neg h3]
        refine ⟨?_, h1, h2, ?_⟩
        · split <;> rfl
        · intro r hr hmem
          rw [hr] at h3
          simp only [Option.any_some, decide_eq_true_eq] at h3
          exact h3 hmem

/-- Witness for the amended C5 at a concrete input: moving `c` from `f`
back under the root succeeds, and the conclusions hold there. -/
theorem c5_move_many_no_parent_validation_witness :
    (moveMany storeUFC "u" ["c"] "u").1.isOk = true ∧
    (moveMany storeUFC "u" ["c"] "u").2 =
      (storeUFC : List File).map (fun f =>
        if queryManyById "u" ["c"] f
        then { f with folderId := mapFolderId "u" "u" } else f) := by
  have h := c5_move_many_no_parent_validation storeUFC "u" "u" ["c"] (by decide)
  exact ⟨by decide, h.1⟩

/-! ## Claim C6 — notification children vs the listing route -/

/-- C6 counterexample: the notification path sorts children
case-insensitively while the `get_files` listing route performs a plain
`find` with no sort, returning natural store order.  On the store
`[root u, folder "b", folder "A"]` the notification for the root carries
`[A, b]` but "list u" returns `[b, A]` — not "exactly the notified
children". -/
theorem c6_listing_order_counterexample :
    findFolderWithChildren storeBA (fun f => f.id == "u") =
      [⟨"u", "u", [folderA, folderB]⟩] ∧
    getFiles storeBA ⟨none, some "u", none, none, none⟩ = [folderB, folderA] ∧
    ([folderA, folderB] : List File) ≠ [folderB, folderA] := by decide

/-- C6 amended: the children list of every change notification for a
folder `F` contains exactly the elements of the synchronous
"list folder F" query on the same store state (a permutation) — the
notification is sorted case-insensitively while the listing comes back in
natural store order. -/
theorem c6_notification_children_perm (s : Store) (q : File → Bool)
    (c : FolderWithChildren) (hc : c ∈ findFolderWithChildren s q) :
    c.children.Perm (getFiles s ⟨none, some c.folderId, none, none, none⟩) := by
  rcases List.mem_map.mp hc with ⟨d, _, rfl⟩
  show (directChildrenSorted s d.id).Perm _
  unfold directChildrenSorted getFiles
  refine (List.perm_insertionSort leNameRel _).trans ?_
  have hpt : ∀ f ∈ (s : List File),
      (decide (f.folderId = d.id)) =
        matchesPartial ⟨none, some d.id, none, none, none⟩ f := by
    intro f _
    refine Bool.eq_iff_iff.mpr ?_
    simp only [matchesPartial, Option.all_none, Option.all_some, Bool.and_eq_true,
      decide_eq_true_eq, beq_iff_eq, true_and, and_true]
    exact eq_comm
  exact List.Perm.of_eq (List.filter_congr hpt)

/-- Witness for the amended C6 at a concrete input. -/
theorem c6_notification_children_perm_witness :
    (⟨"u", "u", [folderA, folderB]⟩ : FolderWithChildren) ∈
      findFolderWithChildren storeBA (fun f => f.id == "u") ∧
    ([folderA, folderB] : List File).Perm
      (getFiles storeBA ⟨none, some "u", none, none, none⟩) := by
  have h := c6_notification_children_perm storeBA (fun f => f.id == "u")
    ⟨"u", "u", [folderA, folderB]⟩ (by decide)
  exact ⟨by decide, h⟩

/-! ## Claim C7 — create is insert-if-absent on (owner, parent, name) -/

/-- C7: `create_one` is an insert-if-absent keyed on
`(owner_id, parent_id, name)`: with an existing record under that exact
key it fails with `NameConflict(name, parent_id)` and inserts nothing;
with no such record (and a fresh document id, which the caller's
`ObjectId::new` guarantees) the node is appended and returned together
with its parent's change-set. -/
theorem c7_create_one_insert_if_absent (s : Store) (file : File) :
    ((∃ d ∈ (s : List File), d.userId = file.userId ∧
        d.folderId = file.folderId ∧ d.name = file.name) →
      createOne s file = (.error (.NameConflict file.name file.folderId), s)) ∧
    ((¬ ∃ d ∈ (s : List File), d.userId = file.userId ∧
        d.folderId = file.folderId ∧ d.name = file.name) →
      (∀ d ∈ (s : List File), d.id ≠ file.id) →
      createOne s file =
        (.ok (file, findFolderWithChildren ((s : List File) ++ [file])
          (fun f => f.id == file.folderId)),
         ((s : List File) ++ [file] : List File))) := by
  have hiff : ((s : List File).any (saveOneQuery file) = true) ↔
      ∃ d ∈ (s : List File), d.userId = file.userId ∧
        d.folderId = file.folderId ∧ d.name = file.name := by
    simp [List.any_eq_true, saveOneQuery, and_assoc]
  constructor
  · intro hex
    unfold createOne dbCreate
    rw [if_pos (hiff.mpr hex)]
  · intro hnex hid
    have hid' : ¬(((s : List File).any (fun d => d.id == file.id)) = true) := by
      intro h
      rcases List.any_eq_true.mp h with ⟨d, hd, hdid⟩
      exact hid d hd (beq_iff_eq.mp hdid)
    unfold createOne dbCreate
    rw [if_neg (fun h => hnex (hiff.mp h)), if_neg hid']

/-- Witness for C7: a same-key create conflicts, a fresh-key create
inserts. -/
theorem c7_create_one_witness :
    createOne storeUF ⟨"f2", "u", "u", ⟨"F", by decide⟩, .Folder⟩ =
      (.error (.NameConflict ⟨"F", by decide⟩ "u"), storeUF) ∧
    createOne storeUF ⟨"g", "u", "u", ⟨"G", by decide⟩, .Folder⟩ =
      (.ok (⟨"g", "u", "u", ⟨"G", by decide⟩, .Folder⟩,
        findFolderWithChildren
          ((storeUF : List File) ++ [⟨"g", "u", "u", ⟨"G", by decide⟩, .Folder⟩])
          (fun f => f.id == "u")),
       ((storeUF : List File) ++ [⟨"g", "u", "u", ⟨"G", by decide⟩, .Folder⟩] :
         List File)) := by
  have h1 := c7_create_one_insert_if_absent storeUF
    ⟨"f2", "u", "u", ⟨"F", by decide⟩, .Folder⟩
  have h2 := c7_create_one_insert_if_absent storeUF
    ⟨"g", "u", "u", ⟨"G", by decide⟩, .Folder⟩
  exact ⟨h1.1 ⟨folderF, by decide, by decide⟩, h2.2 (by decide) (by decide)⟩

/-! ## Claim C8 — listings are sorted case-insensitively -/

/-- C8: every direct-children listing produced by the change-set /
listing aggregations (`find_folder_with_children` and
`lookup_folder_files`, both built on `find_direct_children_stage`) is
sorted case-insensitively alphabetically: along the list the lowercased
names are nondecreasing. -/
theorem c8_listings_sorted_case_insensitive (s : Store) (q : File → Bool)
    (c : FolderWithChildren)
    (hc : c ∈ findFolderWithChildren s q ∨ c ∈ lookupFolderFiles s q) :
    c.children.Pairwise leNameRel := by
  have hchild : ∃ id, c.children = directChildrenSorted s id := by
    rcases hc with hc | hc <;>
      rcases List.mem_map.mp hc with ⟨d, _, rfl⟩ <;> exact ⟨d.id, rfl⟩
  rcases hchild with ⟨id, hid⟩
  rw [hid]
  unfold directChildrenSorted
  exact List.sorted_insertionSort leNameRel
    ((s : List File).filter (fun f => f.folderId = id))

/-- Witness for C8 at a concrete input. -/
theorem c8_listings_sorted_witness :
    ((⟨"u", "u", [folderA, folderB]⟩ : FolderWithChildren) ∈
      findFolderWithChildren storeBA (fun f => f.id == "u") ∨
     (⟨"u", "u", [folderA, folderB]⟩ : FolderWithChildren) ∈
      lookupFolderFiles storeBA (fun f => f.id == "u")) ∧
    ([folderA, folderB] : List File).Pairwise leNameRel := by
  have h := c8_listings_sorted_case_insensitive storeBA (fun f => f.id == "u")
    ⟨"u", "u", [folderA, folderB]⟩ (Or.inl (by decide))
  exact ⟨Or.inl (by decide), h⟩

/-! ## Claim C9 — failed mutations publish nothing and change nothing -/

/-- Helper for C9: the write-and-notify tail of `update_one` leaves the
store untouched when it fails (`NotFound` happens before any write). -/
theorem updateOneApply_error_store (s : Store) (user fileId : String)
    (folder' : Option String) (newName : Option NonEmptyString)
    (e : FileSystemError)
    (h : (updateOneApply s user fileId folder' newName).1 = .error e) :
    (updateOneApply s user fileId folder' newName).2 = s := by
  unfold updateOneApply at h ⊢
  cases hf : (s : List File).find? (fun f => f.id == fileId && f.userId == user) with
  | none => rfl
  | some orig =>
    rw [hf] at h
    simp at h

/-- C9: whenever a mutation returns an error, the store is left exactly
as it was and the route layer (which propagates the error before
`send_folder_changes`) publishes no change-set message. -/
theorem c9_failed_mutation_no_publish (s : Store) (user fileId target : String)
    (ids : List String) (fo no : Option String) (file : File)
    (e : FileSystemError) (rc : Nat) :
    ((moveMany s user ids target).1 = .error e →
      (moveMany s user ids target).2 = s ∧
      publishOnSuccess rc (moveMany s user ids target).1
        (fun out => out.2.getD []) = []) ∧
    ((deleteMany s user ids).1 = .error e →
      (deleteMany s user ids).2 = s ∧
      publishOnSuccess rc (deleteMany s user ids).1 (fun out => out.2) = []) ∧
    ((updateOne s user fileId fo no).1 = .error e →
      (updateOne s user fileId fo no).2 = s ∧
      publishOnSuccess rc (updateOne s user fileId fo no).1
        (fun out => out.2) = []) ∧
    ((createOne s file).1 = .error e →
      (createOne s file).2 = s ∧
      publishOnSuccess rc (createOne s file).1 (fun out => out.2) = []) := by
  refine ⟨fun h => ⟨?_, by rw [h]; rfl⟩, fun h => ⟨?_, by rw [h]; rfl⟩,
    fun h => ⟨?_, by rw [h]; rfl⟩, fun h => ⟨?_, by rw [h]; rfl⟩⟩
  · unfold moveMany at h ⊢
    by_cases h1 : user ∈ ids
    · simp only [if_pos h1]
    · simp only [if_neg h1] at h ⊢
      by_cases h2 : mapFolderId user target ∈ ids
      · simp only [if_pos h2]
      · simp only [if_neg h2] at h ⊢
        by_cases h3 : (findLineageAndParents s user ids).any
            (fun r => decide (mapFolderId user target ∈ r.lineage)) = true
        · simp only [if_pos h3]
        · simp only [if_neg h3] at h
          split at h <;> simp at h
  · unfold deleteMany at h ⊢
    by_cases h1 : user ∈ ids
    · simp only [if_pos h1]
    · simp only [if_neg h1] at h ⊢
      cases hf : findLineageWithParents s user ids with
      | none => rfl
      | some r =>
        rw [hf] at h
        simp at h
  · unfold updateOne at h ⊢
    by_cases h1 : fileId = user
    · simp only [if_pos h1]
    · simp only [if_neg h1] at h ⊢
      by_cases h2 : (fo.map (mapFolderId user)).any
          (fun g => (findLineage s user fileId).any
            (fun lin => decide (g ∈ lin))) = true
      · simp only [if_pos h2]
      · simp only [if_neg h2] at h ⊢
        cases ht : transposeName no with
        | error e2 => rfl
        | ok nn =>
          rw [ht] at h
          exact updateOneApply_error_store s user fileId _ nn e h
  · unfold createOne dbCreate at h ⊢
    by_cases h1 : ((s : List File).any (saveOneQuery file)) = true
    · simp only [if_pos h1]
    · simp only [if_neg h1] at h ⊢
      by_cases h2 : ((s : List File).any (fun d => d.id == file.id)) = true
      · simp only [if_pos h2]
      · simp only [if_neg h2] at h
        simp at h

/-- Witness for C9: a concrete failing input for each mutation. -/
theorem c9_failed_mutation_no_publish_witness :
    (moveMany storeUF "u" ["u"] "f").2 = storeUF ∧
    publishOnSuccess 1 (moveMany storeUF "u" ["u"] "f").1
      (fun out => out.2.getD []) = [] ∧
    (deleteMany storeUF "u" ["u"]).2 = storeUF ∧
    (updateOne storeUF "u" "u" none none).2 = storeUF ∧
    (createOne storeUF folderF).2 = storeUF := by
  have h1 := (c9_failed_mutation_no_publish storeUF "u" "u" "f" ["u"] none none
    folderF .ReadOnly 1).1 (by decide)
  have h2 := (c9_failed_mutation_no_publish storeUF "u" "u" "f" ["u"] none none
    folderF .ReadOnly 1).2.1 (by decide)
  have h3 := (c9_failed_mutation_no_publish storeUF "u" "u" "f" ["u"] none none
    folderF .ReadOnly 1).2.2.1 (by decide)
  have h4 := (c9_failed_mutation_no_publish storeUF "u" "u" "f" ["u"] none none
    folderF (.NameConflict folderF.name folderF.folderId) 1).2.2.2 (by decide)
  exact ⟨h1.1, h1.2, h2.1, h3.1, h4.1⟩

/-! ## Claim C10 — stored names are never empty -/

/-- C10: the empty string is rejected by `NonEmptyString::try_from_str`,
hence by `new_folder`, `from_video` (for an empty custom or video name)
and by a rename through `update_one` — each fails with the
string-validation error before any write — and by construction every
stored node's name is non-empty. -/
theorem c10_names_non_empty (s : Store) (userId fileId newId : String)
    (fo : Option String) (video : Video) (f : File) :
    NonEmptyString.tryFromStr "" = .error .Empty ∧
    newFolder newId userId "" fo = .error .Empty ∧
    fromVideo newId video userId fo (some "") = .error .Empty ∧
    (video.name = "" → fromVideo newId video userId fo none = .error .Empty) ∧
    (fileId ≠ userId →
      updateOne s userId fileId none (some "") =
        (.error (.BadString .Empty), s)) ∧
    f.name.val ≠ "" := by
  refine ⟨rfl, rfl, rfl, ?_, ?_, f.name.property⟩
  · intro hv
    unfold fromVideo
    simp only [Option.getD_none, hv]
    rfl
  · intro hne
    unfold updateOne
    rw [if_neg hne]
    rw [if_neg (by simp)]
    rfl

/-- Witness for C10 at concrete inputs. -/
theorem c10_names_non_empty_witness :
    updateOne storeUF "u" "f" none (some "") =
      (.error (.BadString .Empty), storeUF) ∧
    fromVideo "x" ⟨"", "p", 0, 0, 0, "t", "m", 0⟩ "u" none none =
      .error .Empty := by
  have h := c10_names_non_empty storeUF "u" "f" "x" none
    ⟨"", "p", 0, 0, 0, "t", "m", 0⟩ folderF
  exact ⟨h.2.2.2.2.1 (by decide), h.2.2.2.1 rfl⟩

/-! ## Claim C4 — delete_many count and change-set -/

/-- C4 counterexample: when a requested id's direct parent is itself
deleted the change-set does not cover it.  Deleting `{f, c}` from
`[root u, folder f, folder c ⊂ f]` deletes 2 nodes, and the direct
parents of the requested ids are `{u, f}`, but the returned change-set
covers only `u` — `f` is gone and the post-deletion change query matches
nothing for it. -/
theorem c4_change_set_counterexample :
    (deleteMany storeUFC "u" ["f", "c"]).1 = .ok (2, [⟨"u", "u", []⟩]) ∧
    ((storeUFC : List File).filter
      (fun d => d.userId == "u" && d.id ∈ (["f", "c"] : List String))).map (·.folderId) =
      ["u", "f"] ∧
    (∀ c ∈ [(⟨"u", "u", []⟩ : FolderWithChildren)], c.folderId ≠ "f") := by decide

theorem mem_deleteMatched {s : Store} {user : String} {ids : List String}
    {m : File} :
    m ∈ deleteMatched s user ids ↔
      m ∈ (s : List File) ∧ m.userId = user ∧ (m.id ∈ ids ∨ m.folderId ∈ ids) := by
  simp [deleteMatched, List.mem_filter, and_assoc]

theorem mem_deleteLineage {s : Store} {user : String} {ids : List String}
    {y : String} :
    y ∈ deleteLineage s user ids ↔
      ∃ m ∈ deleteMatched s user ids,
        (y = m.id ∨ y ∈ graphChildren s 100 [m.id]) := by
  simp [deleteLineage, List.mem_flatMap, List.mem_cons]

theorem mem_deleteParents {s : Store} {user : String} {ids : List String}
    {q : String} :
    q ∈ deleteParents s user ids ↔
      ∃ m ∈ deleteMatched s user ids,
        (q = m.folderId ∨
          ∃ c ∈ (s : List File),
            c.id ∈ graphChildren s 100 [m.id] ∧ c.folderId = q) := by
  simp only [deleteParents, List.mem_flatMap, List.mem_cons, List.mem_map,
    List.mem_filter, decide_eq_true_eq]
  constructor
  · rintro ⟨m, hm, hq | ⟨c, ⟨⟨hcs, hcg⟩, hcq⟩⟩⟩
    · exact ⟨m, hm, Or.inl hq⟩
    · exact ⟨m, hm, Or.inr ⟨c, hcs, hcg, hcq⟩⟩
  · rintro ⟨m, hm, hq | ⟨c, hcs, hcg, hcq⟩⟩
    · exact ⟨m, hm, Or.inl hq⟩
    · exact ⟨m, hm, Or.inr ⟨c, ⟨⟨hcs, hcg⟩, hcq⟩⟩⟩

theorem mem_survivors {s : Store} {user : String} {L : List String} {d : File} :
    d ∈ (s : List File).filter (fun f => !queryManyById user L f) ↔
      d ∈ (s : List File) ∧ (d.userId = user → d.id ∉ L) := by
  simp only [List.mem_filter, queryManyById]
  refine and_congr_right fun _ => ?_
  simp [imp_iff_not_or]

/-- The ids belonging to the caller that the deletion filter selects are
exactly the requested ids together with their capped descendants —
provided the requested ids resolve to caller-owned documents and the
depth cap does not truncate the walk. -/
theorem deleteLineage_mem_iff (s : Store) (user : String) (ids : List String)
    (hall : ∀ a ∈ ids, ∃ d ∈ (s : List File), d.id = a ∧ d.userId = user)
    (hsat : ∀ x ∈ graphChildren s 101
        (((s : List File).filter (fun f => f.id ∈ ids)).map (·.id)),
      x ∈ descendantsMany s ids)
    (f : File) (hfs : f ∈ (s : List File)) :
    f.id ∈ deleteLineage s user ids ↔
      (f.id ∈ ids ∨ f.id ∈ descendantsMany s ids) := by
  have hfrOf : ∀ a ∈ ids,
      a ∈ (((s : List File).filter (fun f => f.id ∈ ids)).map (·.id)) := by
    intro a ha
    rcases hall a ha with ⟨da, hdas, hdaid, _⟩
    exact List.mem_map.mpr
      ⟨da, List.mem_filter.mpr ⟨hdas, by simp [hdaid, ha]⟩, hdaid⟩
  constructor
  · intro h
    rcases mem_deleteLineage.mp h with ⟨m, hm, hcase⟩
    rcases mem_deleteMatched.mp hm with ⟨hms, _, hmid⟩
    rcases hcase with heq | hgr
    · rcases hmid with h2 | h2
      · exact Or.inl (heq ▸ h2)
      · refine Or.inr ?_
        have hstep : m.id ∈ stepChildren s [m.folderId] :=
          mem_stepChildren.mpr ⟨m, hms, List.mem_singleton.mpr rfl, rfl⟩
        have h100 : m.id ∈ graphChildren s 100 [m.folderId] :=
          stepChildren_mem_graphChildren (by omega) hstep
        rw [heq]
        exact graphChildren_subset s 100
          (fun x hx => (List.mem_singleton.mp hx) ▸ hfrOf m.folderId h2)
          m.id h100
    · rcases hmid with h2 | h2
      · refine Or.inr ?_
        exact graphChildren_subset s 100
          (fun x hx => (List.mem_singleton.mp hx) ▸ hfrOf m.id h2) f.id hgr
      · refine Or.inr ?_
        have hstep : m.id ∈ stepChildren s [m.folderId] :=
          mem_stepChildren.mpr ⟨m, hms, List.mem_singleton.mpr rfl, rfl⟩
        have h101 : f.id ∈ graphChildren s 101 [m.folderId] :=
          graphChildren_step hstep hgr
        refine hsat f.id ?_
        exact graphChildren_subset s 101
          (fun x hx => (List.mem_singleton.mp hx) ▸ hfrOf m.folderId h2)
          f.id h101
  · intro h
    rcases h with h | h
    · by_cases hfu : f.userId = user
      · exact mem_deleteLineage.mpr
          ⟨f, mem_deleteMatched.mpr ⟨hfs, hfu, Or.inl h⟩, Or.inl rfl⟩
      · rcases hall f.id h with ⟨da, hdas, hdaid, hdau⟩
        exact mem_deleteLineage.mpr
          ⟨da, mem_deleteMatched.mpr ⟨hdas, hdau, Or.inl (hdaid ▸ h)⟩,
           Or.inl hdaid.symm⟩
    · rcases (mem_graphChildren_iff s 100 _ f.id).mp h with ⟨a, ha, hga⟩
      rcases List.mem_map.mp ha with ⟨d0, hd0f, hd0a⟩
      have hd0ids : a ∈ ids := by
        have h3 := List.of_mem_filter hd0f
        rw [← hd0a]
        simpa using h3
      rcases hall a hd0ids with ⟨da, hdas, hdaid, hdau⟩
      refine mem_deleteLineage.mpr
        ⟨da, mem_deleteMatched.mpr ⟨hdas, hdau, Or.inl (hdaid ▸ hd0ids)⟩,
         Or.inr ?_⟩
      rw [hdaid]
      exact hga

/-- A caller-owned document that survived the deletion is listed among
`deleteParents` exactly when it is the direct parent of a requested,
caller-owned document. -/
theorem deleteParents_surviving_iff (s : Store) (user : String)
    (ids : List String) (huniq : UniqueIds s) (d : File)
    (hds : d ∈ (s : List File)) (hdu : d.userId = user)
    (hdnotlin : d.id ∉ deleteLineage s user ids) :
    d.id ∈ deleteParents s user ids ↔
      ∃ req ∈ (s : List File),
        req.userId = user ∧ req.id ∈ ids ∧ req.folderId = d.id := by
  constructor
  · intro h
    rcases mem_deleteParents.mp h with ⟨m, hm, hcase⟩
    rcases mem_deleteMatched.mp hm with ⟨hms, hmu, hmid⟩
    rcases hcase with heq | ⟨c, hcs, hcg, hcf⟩
    · rcases hmid with h2 | h2
      · exact ⟨m, hms, hmu, h2, heq.symm⟩
      · exact absurd (mem_deleteLineage.mpr
          ⟨d, mem_deleteMatched.mpr ⟨hds, hdu, Or.inl (heq ▸ h2)⟩, Or.inl rfl⟩)
          hdnotlin
    · exfalso
      rcases graphChildren_parent_mem s 100 [m.id] c.id hcg with
        ⟨d', hd's, hd'id, hd'case⟩
      have hcd' : d' = c := List.inj_on_of_nodup_map huniq hd's hcs hd'id
      rw [hcd'] at hd'case
      apply hdnotlin
      rcases hd'case with hc1 | hc2
      · have hdm : d.id = m.id := by
          rw [← hcf]
          exact List.mem_singleton.mp hc1
        exact mem_deleteLineage.mpr ⟨m, hm, Or.inl hdm⟩
      · have hdg : d.id ∈ graphChildren s 100 [m.id] := hcf ▸ hc2
        exact mem_deleteLineage.mpr ⟨m, hm, Or.inr hdg⟩
  · rintro ⟨req, hreqs, hrequ, hreqids, hreqf⟩
    exact mem_deleteParents.mpr
      ⟨req, mem_deleteMatched.mpr ⟨hreqs, hrequ, Or.inl hreqids⟩,
       Or.inl hreqf.symm⟩

/-- C4 amended: for a successful `delete_many` over ids that resolve to
caller-owned documents, on a store with unique ids and where the depth
cap does not truncate the walk, the deletion count equals
`|descendants(ids) ∪ ids|` restricted to caller-owned documents, and the
change-set covers exactly those direct parents of the requested
documents that survive the deletion (a parent that was itself deleted is
not covered). -/
theorem c4_delete_many_count_and_parents
    (s : Store) (user : String) (ids : List String)
    (huniq : UniqueIds s)
    (hall : ∀ a ∈ ids, ∃ d ∈ (s : List File), d.id = a ∧ d.userId = user)
    (hsat : ∀ x ∈ graphChildren s 101
        (((s : List File).filter (fun f => f.id ∈ ids)).map (·.id)),
      x ∈ descendantsMany s ids)
    (n : Nat) (ch : List FolderWithChildren)
    (hok : (deleteMany s user ids).1 = .ok (n, ch)) :
    n = ((s : List File).filter (fun f =>
      f.userId == user && (f.id ∈ ids || f.id ∈ descendantsMany s ids))).length ∧
    ∀ q : String, (∃ c ∈ ch, c.folderId = q) ↔
      ((∃ d ∈ (deleteMany s user ids).2, d.userId = user ∧ d.id = q) ∧
       (∃ req ∈ (s : List File), req.userId = user ∧ req.id ∈ ids ∧
         req.folderId = q)) := by
  by_cases h1 : user ∈ ids
  · exfalso
    unfold deleteMany at hok
    rw [if_pos h1] at hok
    simp at hok
  cases hf : findLineageWithParents s user ids with
  | none =>
    have hM0 : deleteMatched s user ids = [] := by
      by_contra h0
      rw [findLineageWithParents_eq_some s user ids h0] at hf
      exact Option.noConfusion hf
    have hclaim0 : (s : List File).filter (fun f =>
        f.userId == user && (f.id ∈ ids || f.id ∈ descendantsMany s ids)) = [] := by
      rw [List.filter_eq_nil_iff]
      intro f hfs hcond
      simp only [Bool.and_eq_true, Bool.or_eq_true, beq_iff_eq,
        decide_eq_true_eq] at hcond
      obtain ⟨hfu, hcase⟩ := hcond
      rcases hcase with hfid | hfdesc
      · have hmem : f ∈ deleteMatched s user ids :=
          mem_deleteMatched.mpr ⟨hfs, hfu, Or.inl hfid⟩
        rw [hM0] at hmem
        exact List.not_mem_nil _ hmem
      · rcases (mem_graphChildren_iff s 100 _ f.id).mp hfdesc with ⟨a, ha, _⟩
        rcases List.mem_map.mp ha with ⟨d0, hd0f, hd0a⟩
        have hd0ids : a ∈ ids := by
          have h3 := List.of_mem_filter hd0f
          rw [← hd0a]
          simpa using h3
        rcases hall a hd0ids with ⟨da, hdas, hdaid, hdau⟩
        have hmem : da ∈ deleteMatched s user ids :=
          mem_deleteMatched.mpr ⟨hdas, hdau, Or.inl (hdaid ▸ hd0ids)⟩
        rw [hM0] at hmem
        exact List.not_mem_nil _ hmem
    have heq : deleteMany s user ids = (.ok (0, []), s) := by
      unfold deleteMany
      rw [if_neg h1, hf]
    rw [heq] at hok
    simp only [Except.ok.injEq, Prod.mk.injEq] at hok
    obtain ⟨hn, hch⟩ := hok
    constructor
    · rw [hclaim0, ← hn]
      rfl
    · intro q
      constructor
      · rintro ⟨c, hc, _⟩
        rw [← hch] at hc
        exact absurd hc (List.not_mem_nil _)
      · rintro ⟨_, ⟨req, hreq, hrequ, hreqids, _⟩⟩
        exfalso
        have hmem : req ∈ deleteMatched s user ids :=
          mem_deleteMatched.mpr ⟨hreq, hrequ, Or.inl hreqids⟩
        rw [hM0] at hmem
        exact List.not_mem_nil _ hmem
  | some r =>
    have hMne : deleteMatched s user ids ≠ [] := by
      intro h0
      unfold findLineageWithParents at hf
      rw [h0] at hf
      exact Option.noConfusion hf
    have hr : r = ⟨deleteLineage s user ids, deleteParents s user ids⟩ := by
      have h2 := findLineageWithParents_eq_some s user ids hMne
      rw [hf] at h2
      exact (Option.some.injEq _ _).mp h2
    subst hr
    have heq : deleteMany s user ids =
        (.ok ((((s : List File).filter
            (queryManyById user (deleteLineage s user ids)))).length,
          findFolderWithChildren
            ((s : List File).filter
              (fun f => !queryManyById user (deleteLineage s user ids) f))
            (queryManyById user (deleteParents s user ids))),
         (s : List File).filter
           (fun f => !queryManyById user (deleteLineage s user ids) f)) := by
      unfold deleteMany
      rw [if_neg h1, hf]
    have hpost : (deleteMany s user ids).2 =
        (s : List File).filter
          (fun f => !queryManyById user (deleteLineage s user ids) f) := by
      rw [heq]
    rw [heq] at hok
    simp only [Except.ok.injEq, Prod.mk.injEq] at hok
    obtain ⟨hn, hch⟩ := hok
    constructor
    · rw [← hn]
      apply congrArg List.length
      apply List.filter_congr
      intro f hfs
      refine Bool.eq_iff_iff.mpr ?_
      simp only [queryManyById, Bool.and_eq_true, Bool.or_eq_true, beq_iff_eq,
        decide_eq_true_eq]
      have hiff := deleteLineage_mem_iff s user ids hall hsat f hfs
      constructor
      · rintro ⟨h3, h4⟩
        exact ⟨h3, hiff.mp h4⟩
      · rintro ⟨h3, h4⟩
        exact ⟨h3, hiff.mpr h4⟩
    · intro q
      rw [hpost]
      constructor
      · rintro ⟨c, hc, hcq⟩
        rw [← hch] at hc
        rcases List.mem_map.mp hc with ⟨d, hd, hcd⟩
        have hdq : d.id = q := by
          rw [← hcq, ← hcd]
        obtain ⟨hdsurv, hdquery⟩ := List.mem_filter.mp hd
        simp only [queryManyById, Bool.and_eq_true, beq_iff_eq,
          decide_eq_true_eq] at hdquery
        obtain ⟨hdu, hdP⟩ := hdquery
        obtain ⟨hdss, hdnot⟩ := mem_survivors.mp hdsurv
        have hiff := deleteParents_surviving_iff s user ids huniq d hdss hdu
          (hdnot hdu)
        rcases hiff.mp hdP with ⟨req, hreqs, hrequ, hreqids, hreqf⟩
        exact ⟨⟨d, hdsurv, hdu, hdq⟩, ⟨req, hreqs, hrequ, hreqids, hdq ▸ hreqf⟩⟩
      · rintro ⟨⟨d, hdpost, hdu, hdq⟩, ⟨req, hreqs, hrequ, hreqids, hreqf⟩⟩
        obtain ⟨hdss, hdnot⟩ := mem_survivors.mp hdpost
        have hiff := deleteParents_surviving_iff s user ids huniq d hdss hdu
          (hdnot hdu)
        have hdP : d.id ∈ deleteParents s user ids :=
          hiff.mpr ⟨req, hreqs, hrequ, hreqids, hreqf.trans hdq.symm⟩
        refine ⟨⟨d.userId, d.id,
          directChildrenSorted ((s : List File).filter
            (fun f => !queryManyById user (deleteLineage s user ids) f)) d.id⟩,
          ?_, hdq⟩
        rw [← hch]
        exact List.mem_map.mpr
          ⟨d, List.mem_filter.mpr ⟨hdpost, by simp [queryManyById, hdu, hdP]⟩,
           rfl⟩

/-- Witness for the amended C4 at a concrete input: deleting the single
leaf folder `c` deletes one node and the change-set covers exactly its
surviving direct parent `f`. -/
theorem c4_delete_many_witness :
    (deleteMany storeUFC "u" ["c"]).1 = .ok (1, [⟨"u", "f", []⟩]) ∧
    1 = ((storeUFC : List File).filter (fun f =>
      f.userId == "u" &&
        (f.id ∈ (["c"] : List String) ||
          f.id ∈ descendantsMany storeUFC ["c"]))).length ∧
    (∃ c ∈ [(⟨"u", "f", []⟩ : FolderWithChildren)], c.folderId = "f") := by
  have h := c4_delete_many_count_and_parents storeUFC "u" ["c"] (by decide)
    (by decide) (by decide) 1 [⟨"u", "f", []⟩] (by decide)
  refine ⟨by decide, h.1, ?_⟩
  refine (h.2 "f").mpr ⟨⟨folderF, by decide, by decide, by decide⟩,
    ⟨folderC, by decide, by decide, by decide, by decide⟩⟩

end Playground
